import Mathlib

/-!
Verification of the nsys-trace analysis scripts: the correlator
(`scripts/analyze_memcpy.py`, `scripts/dump_window_csv.py`), the stream
pairing engine (`scripts/dump_kernel_memcpy_pairs.py`), the kernel binning
aggregator (`scripts/plot_nsys_trace.py`) and the trace-origin computation
(`scripts/analyze_memcpy.py`, `scripts/visualize_nsys_trace.py`).

All timestamps are integer nanoseconds (`Int`); values the Python code
computes with floating-point arithmetic (bandwidths, millisecond scalings,
bin indices over milliseconds) are modelled with exact rationals (`ℚ`).
-/

namespace Memcpy

/-- One joined row of `E2E_QUERY` (analyze_memcpy.py lines 25-49):
a `CUPTI_ACTIVITY_KIND_MEMCPY` row (`m`) inner-joined with the
`CUPTI_ACTIVITY_KIND_RUNTIME` row (`r`) sharing its `correlationId`.
`cpuStart/cpuEnd` are `r.start/r.end`; `gpuStart/gpuEnd` are `m.start/m.end`. -/
structure E2ERow where
  cpuStart : Int
  cpuEnd : Int
  gpuStart : Int
  gpuEnd : Int
  bytes : Int
  copyKind : Int
deriving DecidableEq, Repr

/-- Column `cpu_wall_ns = r.end - r.start` (E2E_QUERY line 29). -/
def cpuWallNs (r : E2ERow) : Int := r.cpuEnd - r.cpuStart

/-- Column `gpu_dma_ns = m.end - m.start` (E2E_QUERY line 32): the device-active time. -/
def gpuDmaNs (r : E2ERow) : Int := r.gpuEnd - r.gpuStart

/-- Column `launch_overhead_ns = m.start - r.start` (E2E_QUERY line 33), raw. -/
def launchOverheadNs (r : E2ERow) : Int := r.gpuStart - r.cpuStart

/-- Column `sync_wait_ns = r.end - m.end` (E2E_QUERY line 34), raw. -/
def syncWaitNs (r : E2ERow) : Int := r.cpuEnd - r.gpuEnd

/-- Value `e2e = max(cpu_wall_ns, gpu_end - cpu_start)` (analyze_memcpy.py line 104,
also lines 125, 134, 187). -/
def e2eNs (r : E2ERow) : Int := max (cpuWallNs r) (r.gpuEnd - r.cpuStart)

/-- The launch-overhead value surfaced in the per-direction totals and the CSV
export: `max(0, launch_overhead_ns)` (analyze_memcpy.py lines 101, 136, 193). -/
def csvLaunchNs (r : E2ERow) : Int := max 0 (launchOverheadNs r)

/-- The sync-wait value surfaced in the per-direction totals and the CSV
export: `max(0, sync_wait_ns)` (analyze_memcpy.py lines 102, 137, 194). -/
def csvSyncNs (r : E2ERow) : Int := max 0 (syncWaitNs r)

/-- The cpu-wall value surfaced in the CSV export: the raw `cpu_wall_ns`
column, written unmodified (analyze_memcpy.py line 191). -/
def csvCpuWallNs (r : E2ERow) : Int := cpuWallNs r

/-- Per-transfer DMA bandwidth in GB/s:
`bytes / (gpu_dma_ns / 1e9) / 1e9` (analyze_memcpy.py line 107). -/
def perTransferBw (r : E2ERow) : ℚ :=
  (r.bytes : ℚ) / ((gpuDmaNs r : ℚ) / 1000000000) / 1000000000

/-- The guarded per-row bandwidth used in the CSV exports
(analyze_memcpy.py lines 135, 188; dump_window_csv.py line 138):
`bytes / (dur/1e9) / 1e9 if dur > 0 and bytes > 0 else 0`. -/
def rowBw (r : E2ERow) : ℚ :=
  if 0 < gpuDmaNs r ∧ 0 < r.bytes then perTransferBw r else 0

/-- Lookup `COPY_KIND.get(copyKind, "?")` (analyze_memcpy.py lines 22, 95). -/
def copyKindName (k : Int) : String :=
  if k = 0 then "Unknown"
  else if k = 1 then "HtoD"
  else if k = 2 then "DtoH"
  else if k = 3 then "HtoH"
  else if k = 4 then "DtoD"
  else if k = 8 then "Peer"
  else "?"

/-- The per-direction accumulator of `analyze` (analyze_memcpy.py lines 88-92):
one `stats[kind]` dict. -/
structure DirStats where
  count : Nat
  bytes : Int
  cpuWall : Int
  gpuDma : Int
  launchOh : Int
  syncWait : Int
  e2eList : List Int
  bwList : List ℚ
deriving DecidableEq, Repr

/-- The `defaultdict` initial value (analyze_memcpy.py lines 88-92). -/
def DirStats.init : DirStats :=
  { count := 0, bytes := 0, cpuWall := 0, gpuDma := 0, launchOh := 0,
    syncWait := 0, e2eList := [], bwList := [] }

/-- One iteration of the accumulation loop (analyze_memcpy.py lines 94-107)
applied to the row's own direction bucket. -/
def DirStats.add (s : DirStats) (r : E2ERow) : DirStats :=
  { count := s.count + 1
    bytes := s.bytes + r.bytes
    cpuWall := s.cpuWall + cpuWallNs r
    gpuDma := s.gpuDma + gpuDmaNs r
    launchOh := s.launchOh + csvLaunchNs r
    syncWait := s.syncWait + csvSyncNs r
    e2eList := s.e2eList ++ [e2eNs r]
    bwList := s.bwList ++ (if 0 < gpuDmaNs r ∧ 0 < r.bytes then [perTransferBw r] else []) }

/-- The final `stats[kind]` bucket after the loop over all rows
(analyze_memcpy.py lines 94-107): rows of other directions leave the
bucket untouched. -/
def statsFor (rows : List E2ERow) (kind : String) : DirStats :=
  rows.foldl (fun s r => if copyKindName r.copyKind = kind then s.add r else s)
    DirStats.init

/-- The reported per-direction bandwidth
`sum(bw_list) / len(bw_list) if bw_list else 0` (analyze_memcpy.py line 116). -/
def dirBw (rows : List E2ERow) (kind : String) : ℚ :=
  let s := statsFor rows kind
  if s.bwList = [] then 0 else s.bwList.sum / (s.bwList.length : ℚ)

/-- The bandwidth formula of the spec's Summary Reporter, in the code's GB/s
unit: the group's total bytes divided by its total device-active seconds, 0
when that total is 0.  This definition follows the SPEC's words ("bandwidth =
bytes ÷ device-active seconds, 0 when device-active is 0"), for comparison
with the source's `dirBw`; it is not a translation of the source. -/
def specGroupBw (rows : List E2ERow) (kind : String) : ℚ :=
  let s := statsFor rows kind
  if s.gpuDma = 0 then 0 else (s.bytes : ℚ) / ((s.gpuDma : ℚ) / 1000000000) / 1000000000

/- ── The correlator join ──────────────────────────────────────────────── -/
/-- A `CUPTI_ACTIVITY_KIND_RUNTIME` row, as used by `E2E_QUERY`. -/
structure RRow where
  start : Int
  endTs : Int
  corr : Int
deriving DecidableEq, Repr

/-- A `CUPTI_ACTIVITY_KIND_MEMCPY` row, as used by `E2E_QUERY`. -/
structure MRow where
  start : Int
  endTs : Int
  bytes : Int
  copyKind : Int
  streamId : Int
  corr : Int
deriving DecidableEq, Repr

/-- The joined output row for a (memcpy, runtime) pair. -/
def joinRow (m : MRow) (r : RRow) : E2ERow :=
  { cpuStart := r.start, cpuEnd := r.endTs, gpuStart := m.start,
    gpuEnd := m.endTs, bytes := m.bytes, copyKind := m.copyKind }

/-- The inner join of `E2E_QUERY` / `MEMCPY_E2E_SQL`
(`... FROM CUPTI_ACTIVITY_KIND_MEMCPY m JOIN CUPTI_ACTIVITY_KIND_RUNTIME r
ON m.correlationId = r.correlationId ... ORDER BY m.start`): one output row
per matching pair, transfers taken in `ORDER BY m.start` order — `ms` is the
transfer table already in that order.  A transfer with no matching runtime
row contributes nothing. -/
def e2eJoin (ms : List MRow) (rs : List RRow) : List E2ERow :=
  ms.flatMap fun m => (rs.filter fun r => r.corr = m.corr).map (joinRow m)

/-- Count `len(rows)`, the only event total `analyze` reports
(analyze_memcpy.py line 85: "Analyzing {len(rows)} memcpy events"). -/
def analyzeReportedCount (ms : List MRow) (rs : List RRow) : Nat :=
  (e2eJoin ms rs).length

/-- A concrete trace whose timestamps are inconsistent (the device activity
starts before the CPU call): the runtime row spans [10,11], the memcpy spans
[0,20], both with correlation id 7. -/
def cxRun : RRow := { start := 10, endTs := 11, corr := 7 }

/-- The memcpy row of the C1 counterexample trace. -/
def cxMem : MRow :=
  { start := 0, endTs := 20, bytes := 4, copyKind := 1, streamId := 0, corr := 7 }

/-- The direction group of a row list: the rows the loop routes into
`stats[kind]`. -/
def dirGroup (rows : List E2ERow) (kind : String) : List E2ERow :=
  rows.filter fun r => copyKindName r.copyKind = kind

/-- The rows of a direction group that contribute a bandwidth sample:
`gpu_dma_ns > 0 and bytes > 0` (analyze_memcpy.py line 106). -/
def bwGroup (rows : List E2ERow) (kind : String) : List E2ERow :=
  (dirGroup rows kind).filter fun r => 0 < gpuDmaNs r ∧ 0 < r.bytes

/-- A zero-duration transfer row (direction HtoD, 8 bytes, dma time 0). -/
def zRow : E2ERow :=
  { cpuStart := 0, cpuEnd := 5, gpuStart := 3, gpuEnd := 3, bytes := 8, copyKind := 1 }

/-- First row of the C3 counterexample group: 10 bytes in 1 ns. -/
def bwRowA : E2ERow :=
  { cpuStart := 0, cpuEnd := 1, gpuStart := 0, gpuEnd := 1, bytes := 10, copyKind := 1 }

/-- Second row of the C3 counterexample group: 10 bytes in 4 ns. -/
def bwRowB : E2ERow :=
  { cpuStart := 0, cpuEnd := 4, gpuStart := 0, gpuEnd := 4, bytes := 10, copyKind := 1 }

end Memcpy

namespace Pairs

/-- The two event types of the merged timeline of
dump_kernel_memcpy_pairs.py (lines 76-97). -/
inductive EvType
  | kernel
  | memcpy
deriving DecidableEq, Repr

/-- One event of the merged timeline (dump_kernel_memcpy_pairs.py lines
76-97): kernels and memcpys are loaded in start order, merged and sorted by
`start`.  Only the fields the pairing scan reads are kept.  The source
column `end` is `endTs` here. -/
structure Ev where
  type : EvType
  start : Int
  endTs : Int
  stream : Int
deriving DecidableEq, Repr

/-- The backward scan of dump_kernel_memcpy_pairs.py lines 122-126:
`for j in range(i - 1, -1, -1): if p(events[j]): return events[j]` — the
first match walking down from `i - 1`, i.e. the last match in the prefix
before index `i`. -/
def scanPrev (p : Ev → Bool) (es : List Ev) (i : Nat) : Option Ev :=
  ((es.take i).reverse).find? p

/-- The forward scan of dump_kernel_memcpy_pairs.py lines 129-133:
`for j in range(i + 1, len(events)): if p(events[j]): return events[j]`. -/
def scanNext (p : Ev → Bool) (es : List Ev) (i : Nat) : Option Ev :=
  (es.drop (i + 1)).find? p

/-- The scan predicate `events[j]["type"] == "kernel" and
events[j]["stream"] == stream` (lines 124, 131). -/
def isKernelOn (σ : Int) (e : Ev) : Bool :=
  decide (e.type = EvType.kernel ∧ e.stream = σ)

/-- The same membership test with the roles swapped: a transfer event on
stream `σ`.  Used to express the spec's symmetric lookup (a compute event's
nearest prior transfer); the script itself only emits rows for transfers. -/
def isMemcpyOn (σ : Int) (e : Ev) : Bool :=
  decide (e.type = EvType.memcpy ∧ e.stream = σ)

/-- Field `prev_kernel` of the memcpy at index `i` (lines 122-126). -/
def prevKernel (es : List Ev) (i : Nat) (σ : Int) : Option Ev :=
  scanPrev (isKernelOn σ) es i

/-- Field `next_kernel` of the memcpy at index `i` (lines 129-133). -/
def nextKernel (es : List Ev) (i : Nat) (σ : Int) : Option Ev :=
  scanNext (isKernelOn σ) es i

/-- The backward scan run for a compute event, looking for the nearest
transfer on the same stream: the relation under which the spec's symmetry
invariant ("A is reported as B's prev") is read.  The script computes no
such report; this is its scan (lines 122-126) with the kernel/memcpy roles
swapped. -/
def prevTransfer (es : List Ev) (i : Nat) (σ : Int) : Option Ev :=
  scanPrev (isMemcpyOn σ) es i

/-- Value `gap_before = ev.start - prev_kernel.end` when a previous kernel exists,
else null (dump_kernel_memcpy_pairs.py line 137), in nanoseconds (the source
divides by 1e6 for display only). -/
def gapBeforeNs (es : List Ev) (i : Nat) : Option Int :=
  match es[i]? with
  | none => none
  | some t => (prevKernel es i t.stream).map fun k => t.start - k.endTs

/-- Value `gap_after = next_kernel.start - ev.end` when a next kernel exists, else
null (dump_kernel_memcpy_pairs.py line 138), in nanoseconds. -/
def gapAfterNs (es : List Ev) (i : Nat) : Option Int :=
  match es[i]? with
  | none => none
  | some t => (nextKernel es i t.stream).map fun k => k.start - t.endTs

/-- The spec's pairing scenario: stream-1 compute events [0,10) and [50,60)
around a transfer [20,30), in chronological order. -/
def demoTL : List Ev :=
  [{ type := EvType.kernel, start := 0, endTs := 10, stream := 1 },
   { type := EvType.memcpy, start := 20, endTs := 30, stream := 1 },
   { type := EvType.kernel, start := 50, endTs := 60, stream := 1 }]

/-- First transfer of the symmetry counterexample timeline (stream 0). -/
def tA : Ev := { type := EvType.memcpy, start := 0, endTs := 1, stream := 0 }

/-- Second transfer of the symmetry counterexample timeline (stream 0). -/
def tA2 : Ev := { type := EvType.memcpy, start := 2, endTs := 3, stream := 0 }

/-- The compute event of the symmetry counterexample timeline (stream 0). -/
def kB : Ev := { type := EvType.kernel, start := 4, endTs := 5, stream := 0 }

end Pairs

namespace Memcpy

/-- A correlator record whose api call starts after the device activity:
raw launch overhead is -5 ns. -/
def negRow : E2ERow :=
  { cpuStart := 5, cpuEnd := 6, gpuStart := 0, gpuEnd := 1, bytes := 4, copyKind := 1 }

end Memcpy

namespace PlotTrace

/-- One kernel row of the dataframe fed to `bin_events`
(plot_nsys_trace.py lines 111-127): stream id, start/end/duration in
milliseconds, and the short kernel name (`op_name`) used as label. -/
structure KRec where
  stream : Int
  startMs : ℚ
  endMs : ℚ
  durMs : ℚ
  label : String
deriving DecidableEq, Repr

/-- The `.astype(int)` truncation toward zero of a rational, as numpy performs
on `start_ms / bin_ms` (plot_nsys_trace.py line 181). -/
def ratTrunc (q : ℚ) : Int := Int.tdiv q.num q.den

/-- Assignment `kernels["bin"] = (kernels["start_ms"] / bin_ms).astype(int)`
(plot_nsys_trace.py line 181). -/
def binIdx (s W : ℚ) : Int := ratTrunc (s / W)

/-- The `groupby(["stream_id", "bin"])` key of an event
(plot_nsys_trace.py line 183). -/
def groupKey (e : KRec) (W : ℚ) : Int × Int := (e.stream, binIdx e.startMs W)

/-- Helper of `firstSeen`: keeps each element's first occurrence, skipping
those already seen. -/
def firstSeenAux {α : Type} [DecidableEq α] (seen : List α) : List α → List α
  | [] => []
  | a :: l => if a ∈ seen then firstSeenAux seen l else a :: firstSeenAux (a :: seen) l

/-- The distinct elements of a list in first-seen order — the order pandas
enumerates unique values. -/
def firstSeen {α : Type} [DecidableEq α] (l : List α) : List α :=
  firstSeenAux [] l

/-- Lexicographic order on `(stream_id, bin)` keys: pandas `groupby` with
its default `sort=True` emits one row per key in this order. -/
def keyLe (a b : Int × Int) : Prop :=
  a.1 < b.1 ∨ (a.1 = b.1 ∧ a.2 ≤ b.2)

instance : DecidableRel keyLe := fun a b =>
  inferInstanceAs (Decidable (a.1 < b.1 ∨ (a.1 = b.1 ∧ a.2 ≤ b.2)))

instance : IsTotal (Int × Int) keyLe :=
  ⟨fun a b => by rw [keyLe, keyLe]; omega⟩

instance : IsTrans (Int × Int) keyLe :=
  ⟨fun a b c hab hbc => by rw [keyLe] at *; omega⟩

instance : IsAntisymm (Int × Int) keyLe :=
  ⟨fun a b hab hba => by rw [keyLe] at *; rw [Prod.ext_iff]; omega⟩

/-- Minimum of a rational list (0 on the empty list, which `bin_events`
never queries): the `("start_ms", "min")` aggregate. -/
def qMin : List ℚ → ℚ
  | [] => 0
  | h :: t => t.foldl min h

/-- Maximum of a rational list: the `("end_ms", "max")` aggregate. -/
def qMax : List ℚ → ℚ
  | [] => 0
  | h :: t => t.foldl max h

/-- The guarantee of `s.value_counts().index[0]` (plot_nsys_trace.py line
188): the returned label is a most frequent one. -/
def MostFrequent (ls : List String) (m : String) : Prop :=
  m ∈ ls ∧ ∀ x ∈ ls, ls.count x ≤ ls.count m

/-- The faithful contract of `s.value_counts().index[0]`: it returns SOME
most frequent label, but which one wins a frequency tie is decided by
pandas' hash-table bucket iteration order — determined by the labels'
hashes (randomized across processes for Python strings), not by the event
order — so the embedding models the expression as an arbitrary selector
subject only to the maximality contract. -/
def IsTieSelector (tie : List String → String) : Prop :=
  ∀ ls : List String, ls ≠ [] → MostFrequent ls (tie ls)

/-- A concrete admissible selector: the earliest-seen most frequent label
(`List.argmax` keeps the earlier candidate on ties and the candidates are
enumerated in first-seen order).  Used to instantiate the abstract selector
in witnesses; not claimed to be pandas' tie order. -/
def firstMax (ls : List String) : String :=
  ((firstSeen ls).argmax fun x => ls.count x).getD ""

/-- Another admissible selector: the latest-seen most frequent label. -/
def lastMax (ls : List String) : String :=
  (ls.reverse.argmax fun x => ls.count x).getD ""

/-- One aggregated row of `bin_events` (plot_nsys_trace.py lines 183-192):
key, `count`, `start_ms = min`, `end_ms = max`, `total_dur = sum`,
`top_kernel` label. -/
structure BinRec where
  stream : Int
  bin : Int
  count : Nat
  startMs : ℚ
  endMs : ℚ
  totalDur : ℚ
  label : String
deriving DecidableEq, Repr

/-- The group keys of the non-empty `(stream_id, bin)` groups, in the
sorted order pandas `groupby` emits them. -/
def sortedKeys (ks : List KRec) (W : ℚ) : List (Int × Int) :=
  List.insertionSort keyLe (firstSeen (ks.map fun e => groupKey e W))

/-- The rows of one `(stream_id, bin)` group, in their original dataframe
order (pandas preserves intra-group order). -/
def groupOf (ks : List KRec) (W : ℚ) (key : Int × Int) : List KRec :=
  ks.filter fun e => groupKey e W = key

/-- The aggregate row the `agg` call computes for one group
(plot_nsys_trace.py lines 183-190), given the tie selection `tie` standing
for `value_counts().index[0]`. -/
def mkBin (tie : List String → String) (ks : List KRec) (W : ℚ)
    (key : Int × Int) : BinRec :=
  { stream := key.1
    bin := key.2
    count := (groupOf ks W key).length
    startMs := qMin ((groupOf ks W key).map fun e => e.startMs)
    endMs := qMax ((groupOf ks W key).map fun e => e.endMs)
    totalDur := ((groupOf ks W key).map fun e => e.durMs).sum
    label := tie ((groupOf ks W key).map fun e => e.label) }

/-- Function `bin_events` restricted to the kernel rows (plot_nsys_trace.py lines
181-190): one aggregated row per non-empty `(stream_id, bin)` group, keys in
sorted order, parameterized by the `value_counts().index[0]` tie selection.
(Memcpy rows bypass binning entirely, lines 175, 206.) -/
def binEvents (tie : List String → String) (ks : List KRec) (W : ℚ) :
    List BinRec :=
  (sortedKeys ks W).map (mkBin tie ks W)

/-- First kernel of the binning scenario: stream 2, start 5. -/
def scA : KRec := { stream := 2, startMs := 5, endMs := 15, durMs := 10, label := "k" }

/-- Second kernel of the binning scenario: stream 2, start 8. -/
def scB : KRec := { stream := 2, startMs := 8, endMs := 18, durMs := 10, label := "k" }

/-- A label multiset has a unique mode: one label strictly more frequent
than every other. -/
def UniqueMode (ls : List String) : Prop :=
  ∃ m ∈ ls, ∀ x ∈ ls, x ≠ m → ls.count x < ls.count m

/-- A kernel labelled "a" (bin 0 of stream 0 for width 10). -/
def cxa : KRec := { stream := 0, startMs := 1, endMs := 2, durMs := 1, label := "a" }

/-- A kernel labelled "b" sharing cxa's bin: the label frequencies tie. -/
def cxb : KRec := { stream := 0, startMs := 3, endMs := 4, durMs := 1, label := "b" }

end PlotTrace

namespace Origin

/-- A `CUPTI_ACTIVITY_KIND_KERNEL` row, as far as the origin computation and
window placement read it. -/
structure KernelRow where
  start : Int
  endTs : Int
  streamId : Int
deriving DecidableEq, Repr

/-- The tables of one trace store session. -/
structure Trace where
  kernels : List KernelRow
  memcpys : List Memcpy.MRow
  runtimes : List Memcpy.RRow
deriving DecidableEq, Repr

/-- The trace origin of analyze_memcpy.py lines 66-68 and
dump_window_csv.py lines 85-87: `SELECT MIN(start)` over the kernel table,
falling back to the memcpy table only when the kernel table is empty
(`MIN` over an empty table is NULL). -/
def traceOriginAnalyze (t : Trace) : Option Int :=
  match (t.kernels.map fun k => k.start).min? with
  | some v => some v
  | none => (t.memcpys.map fun m => m.start).min?

/-- The trace origin of visualize_nsys_trace.py lines 108-112:
`t0 = min(all_starts)` over the kernel and memcpy starts together. -/
def traceOriginVisualize (t : Trace) : Option Int :=
  (t.kernels.map (fun k => k.start) ++ t.memcpys.map fun m => m.start).min?

/-- The origin the SPEC describes ("the minimum observed timestamp" over all
events in the trace): the minimum start over kernel, transfer and api-call
rows together.  This definition follows the spec's words for comparison with
the source's origins; it is not a translation of the source. -/
def specTraceOrigin (t : Trace) : Option Int :=
  (t.kernels.map (fun k => k.start) ++ t.memcpys.map (fun m => m.start) ++
    t.runtimes.map fun r => r.start).min?

/-- A trace whose earliest event is a transfer at 5, before the first kernel
at 10. -/
def cxTrace : Trace :=
  { kernels := [{ start := 10, endTs := 20, streamId := 0 }]
    memcpys := [{ start := 5, endTs := 6, bytes := 1, copyKind := 1,
                  streamId := 0, corr := 1 }]
    runtimes := [] }

end Origin

namespace Memcpy

/-- C1 counterexample: the record `joinRow cxMem cxRun` is output by the
correlator (`e2eJoin`), yet its `end_to_end` (= max(1, 10) = 10) is strictly
below its `device_active` (= 20).  The claimed invariant
`end_to_end ≥ device_active` therefore fails on a trace whose transfer starts
before its api call. -/
theorem e2e_ge_device_active_counterexample :
    e2eJoin [cxMem] [cxRun] = [joinRow cxMem cxRun] ∧
      e2eNs (joinRow cxMem cxRun) < gpuDmaNs (joinRow cxMem cxRun) := by
  constructor
  · rfl
  · decide

/-- C1 (amended): for EVERY correlator record — inconsistent timestamps
included — `end_to_end ≥ cpu_wall` holds unconditionally; and
`end_to_end ≥ device_active` holds whenever the api call does not start
after the transfer (`api.start ≤ transfer.start`, i.e. the raw launch
overhead is non-negative). -/
theorem e2e_dominates_components (r : E2ERow) :
    cpuWallNs r ≤ e2eNs r ∧
      (r.cpuStart ≤ r.gpuStart → gpuDmaNs r ≤ e2eNs r) := by
  refine ⟨le_max_left _ _, fun h => ?_⟩
  have h2 : gpuDmaNs r ≤ r.gpuEnd - r.cpuStart := by
    unfold gpuDmaNs; omega
  exact le_trans h2 (le_max_right _ _)

/-- Witness for `e2e_dominates_components`: the cpu_wall bound at the
inconsistent-timestamp record of the counterexample (api starts after the
transfer), and both bounds at a consistent record. -/
theorem e2e_dominates_components_witness :
    cpuWallNs (joinRow cxMem cxRun) ≤ e2eNs (joinRow cxMem cxRun) ∧
      ((joinRow cxMem { cxRun with start := -3 }).cpuStart ≤
          (joinRow cxMem { cxRun with start := -3 }).gpuStart ∧
        gpuDmaNs (joinRow cxMem { cxRun with start := -3 }) ≤
          e2eNs (joinRow cxMem { cxRun with start := -3 })) :=
  ⟨(e2e_dominates_components (joinRow cxMem cxRun)).1,
    by decide,
    (e2e_dominates_components (joinRow cxMem { cxRun with start := -3 })).2 (by decide)⟩

/-- C2 (amended): a transfer event whose correlation id matches no api_call
row is excluded from the correlator's output and leaves every other output
record (and its computed fields) unchanged — the join output is literally
identical with and without the unmatched transfer, and the computation is
total (never fatal).  No dedicated unmatched-transfer counter exists: the
analyzer reports only the matched-row total, while the window dumper reports
the total transfer count and the matched count, so the number of unmatched
transfers appears only as the difference of those two totals, which grows by
exactly 1 (the total count, `len(memcpys)`, grows by 1; the matched count
does not change). -/
theorem unmatched_transfer_dropped (rs : List RRow) (l₁ l₂ : List MRow) (t : MRow)
    (h : ∀ r ∈ rs, r.corr ≠ t.corr) :
    e2eJoin (l₁ ++ t :: l₂) rs = e2eJoin (l₁ ++ l₂) rs ∧
      (l₁ ++ t :: l₂).length = (l₁ ++ l₂).length + 1 := by
  have hfil : rs.filter (fun r => r.corr = t.corr) = [] := by
    rw [List.filter_eq_nil_iff]
    intro r hr
    simpa using h r hr
  constructor
  · simp [e2eJoin, hfil]
  · simp [List.length_append]; omega

/-- Witness for `unmatched_transfer_dropped` on a one-row store plus one
unmatched transfer. -/
theorem unmatched_transfer_dropped_witness :
    (∀ r ∈ [cxRun], r.corr ≠ ({ cxMem with corr := 99 } : MRow).corr) ∧
      e2eJoin ([cxMem] ++ { cxMem with corr := 99 } :: []) [cxRun] =
          e2eJoin ([cxMem] ++ []) [cxRun] ∧
        ([cxMem] ++ { cxMem with corr := 99 } :: []).length =
          ([cxMem] ++ ([] : List MRow)).length + 1 :=
  ⟨by decide, unmatched_transfer_dropped [cxRun] [cxMem] [] _ (by decide)⟩

/-- C2 counterexample: the claim's "diagnostics counter of unmatched
transfers is incremented by exactly 1" names a counter the code does not
maintain.  The correlator's only reported total (`len(rows)`,
analyze_memcpy.py line 85) counts matched join rows: adding an unmatched
transfer (correlation id 99, matching no runtime row) leaves it unchanged —
it is incremented by 0, not 1. -/
theorem unmatched_counter_counterexample :
    ([cxRun].filter fun r => r.corr = (99 : Int)) = [] ∧
      analyzeReportedCount [cxMem, { cxMem with corr := 99 }] [cxRun] =
        analyzeReportedCount [cxMem] [cxRun] := by
  constructor
  · decide
  · rfl

theorem statsFor_append (rows : List E2ERow) (r : E2ERow) (kind : String) :
    statsFor (rows ++ [r]) kind =
      if copyKindName r.copyKind = kind then (statsFor rows kind).add r
      else statsFor rows kind := by
  simp [statsFor, List.foldl_append]

/-- Closed form of the accumulation loop: every field of `stats[kind]` is the
corresponding aggregate over the direction group. -/
theorem statsFor_eq (rows : List E2ERow) (kind : String) :
    statsFor rows kind =
      { count := (dirGroup rows kind).length
        bytes := ((dirGroup rows kind).map (·.bytes)).sum
        cpuWall := ((dirGroup rows kind).map cpuWallNs).sum
        gpuDma := ((dirGroup rows kind).map gpuDmaNs).sum
        launchOh := ((dirGroup rows kind).map csvLaunchNs).sum
        syncWait := ((dirGroup rows kind).map csvSyncNs).sum
        e2eList := (dirGroup rows kind).map e2eNs
        bwList := (bwGroup rows kind).map perTransferBw } := by
  induction rows using List.reverseRecOn with
  | nil => rfl
  | append_singleton l r ih =>
      rw [statsFor_append]
      by_cases h : copyKindName r.copyKind = kind
      · simp only [if_pos h, ih, DirStats.add, dirGroup, bwGroup,
          List.filter_append, List.filter_singleton, h,
          if_pos, List.map_append, List.sum_append]
        by_cases hq : 0 < gpuDmaNs r ∧ 0 < r.bytes
        · simp [hq]
        · simp [hq]
      · simp [if_neg h, ih, dirGroup, bwGroup, List.filter_append,
          List.filter_singleton, h]

theorem sum_int_zero_of_nonneg {l : List Int} (hpos : ∀ x ∈ l, 0 ≤ x)
    (hsum : l.sum = 0) : ∀ x ∈ l, x = 0 := by
  induction l with
  | nil => intro x hx; cases hx
  | cons a t ih =>
      have ha : 0 ≤ a := hpos a (List.mem_cons_self a t)
      have ht : ∀ x ∈ t, 0 ≤ x := fun x hx => hpos x (List.mem_cons_of_mem a hx)
      have hts : 0 ≤ t.sum := List.sum_nonneg ht
      have hsa : a + t.sum = 0 := by simpa [List.sum_cons] using hsum
      intro x hx
      rcases List.mem_cons.mp hx with rfl | hx'
      · omega
      · exact ih ht (by omega) x hx'

/-- The reported per-direction bandwidth is the arithmetic mean of the
per-transfer bandwidths of the qualifying rows (those with positive bytes and
positive device-active time), and 0 when there are none. -/
theorem dirBw_eq_mean (rows : List E2ERow) (kind : String) :
    dirBw rows kind =
      if bwGroup rows kind = [] then 0
      else ((bwGroup rows kind).map perTransferBw).sum /
        ((bwGroup rows kind).length : ℚ) := by
  rw [dirBw, statsFor_eq]
  by_cases h : bwGroup rows kind = []
  · simp [h]
  · have hne : (bwGroup rows kind).map perTransferBw ≠ [] := by
      simpa [List.map_eq_nil_iff] using h
    simp [h, hne]

/-- C10: in the per-direction rollup, a transfer with non-positive
device-active duration or non-positive byte count still contributes to its
group's count, total bytes and every total duration, but contributes no
bandwidth sample (the `bw_list` field is inherited unchanged); the reported
bandwidth is the arithmetic mean of the per-transfer bandwidths of the
qualifying transfers, and exactly 0 when the direction group has no transfer
with both positive bytes and positive device-active time. -/
theorem dir_rollup_bandwidth_mean :
    (∀ (rows : List E2ERow) (r : E2ERow) (kind : String),
        copyKindName r.copyKind = kind → (gpuDmaNs r ≤ 0 ∨ r.bytes ≤ 0) →
        statsFor (rows ++ [r]) kind =
          { statsFor rows kind with
              count := (statsFor rows kind).count + 1
              bytes := (statsFor rows kind).bytes + r.bytes
              cpuWall := (statsFor rows kind).cpuWall + cpuWallNs r
              gpuDma := (statsFor rows kind).gpuDma + gpuDmaNs r
              launchOh := (statsFor rows kind).launchOh + csvLaunchNs r
              syncWait := (statsFor rows kind).syncWait + csvSyncNs r
              e2eList := (statsFor rows kind).e2eList ++ [e2eNs r] }) ∧
    (∀ (rows : List E2ERow) (kind : String),
        dirBw rows kind =
          if bwGroup rows kind = [] then 0
          else ((bwGroup rows kind).map perTransferBw).sum /
            ((bwGroup rows kind).length : ℚ)) ∧
    (∀ (rows : List E2ERow) (kind : String),
        (∀ r ∈ dirGroup rows kind, gpuDmaNs r ≤ 0 ∨ r.bytes ≤ 0) →
        dirBw rows kind = 0) := by
  refine ⟨?_, dirBw_eq_mean, ?_⟩
  · intro rows r kind hk hz
    rw [statsFor_append, if_pos hk, DirStats.add]
    have hq : ¬(0 < gpuDmaNs r ∧ 0 < r.bytes) := by omega
    simp [hq]
  · intro rows kind hall
    have hempty : bwGroup rows kind = [] := by
      rw [bwGroup, List.filter_eq_nil_iff]
      intro r hr
      have := hall r hr
      simp only [decide_eq_true_eq]
      omega
    rw [dirBw_eq_mean, if_pos hempty]

/-- Witness for `dir_rollup_bandwidth_mean`: a single zero-duration transfer
contributes to the totals but yields no bandwidth sample, and its group's
bandwidth is 0. -/
theorem dir_rollup_bandwidth_mean_witness :
    (copyKindName zRow.copyKind = "HtoD" ∧ (gpuDmaNs zRow ≤ 0 ∨ zRow.bytes ≤ 0)) ∧
      statsFor ([] ++ [zRow]) "HtoD" =
        { statsFor [] "HtoD" with
            count := (statsFor [] "HtoD").count + 1
            bytes := (statsFor [] "HtoD").bytes + zRow.bytes
            cpuWall := (statsFor [] "HtoD").cpuWall + cpuWallNs zRow
            gpuDma := (statsFor [] "HtoD").gpuDma + gpuDmaNs zRow
            launchOh := (statsFor [] "HtoD").launchOh + csvLaunchNs zRow
            syncWait := (statsFor [] "HtoD").syncWait + csvSyncNs zRow
            e2eList := (statsFor [] "HtoD").e2eList ++ [e2eNs zRow] } ∧
      dirBw [zRow] "HtoD" = 0 :=
  ⟨⟨by decide, by decide⟩,
    dir_rollup_bandwidth_mean.1 [] zRow "HtoD" (by decide) (by decide),
    dir_rollup_bandwidth_mean.2.2 [zRow] "HtoD" (by decide)⟩

/-- C3 counterexample: for the HtoD group of two transfers (10 bytes / 1 ns
and 10 bytes / 4 ns), the reported per-direction bandwidth is the mean of the
per-transfer bandwidths, 25/4 GB/s, which differs from the group's total
bytes divided by its device-active seconds, 20 B / 5 ns = 4 GB/s.  The
reported group bandwidth therefore does not equal total bytes ÷ device-active
duration. -/
theorem group_bandwidth_counterexample :
    dirBw [bwRowA, bwRowB] "HtoD" = 25 / 4 ∧
      specGroupBw [bwRowA, bwRowB] "HtoD" = 4 ∧
      dirBw [bwRowA, bwRowB] "HtoD" ≠ specGroupBw [bwRowA, bwRowB] "HtoD" := by
  have h1 : dirBw [bwRowA, bwRowB] "HtoD" = 25 / 4 := by
    norm_num [dirBw, statsFor, DirStats.init, DirStats.add, copyKindName,
      perTransferBw, gpuDmaNs, bwRowA, bwRowB]
    simp
  have h2 : specGroupBw [bwRowA, bwRowB] "HtoD" = 4 := by
    norm_num [specGroupBw, statsFor, DirStats.init, DirStats.add, copyKindName,
      perTransferBw, gpuDmaNs, cpuWallNs, csvLaunchNs, csvSyncNs,
      launchOverheadNs, syncWaitNs, bwRowA, bwRowB]
  refine ⟨h1, h2, ?_⟩
  rw [h1, h2]
  norm_num

/-- C3 (amended): the per-row CSV bandwidth equals bytes ÷ device-active
seconds (scaled to GB/s) for rows with positive bytes and positive duration,
and is exactly 0 — the guard makes the computation total, with no NaN or
division error — whenever the device-active duration is 0; the per-direction
rollup bandwidth is the arithmetic mean of those per-transfer bandwidths over
the qualifying rows, and is exactly 0 whenever the group's total
device-active duration is 0 (its per-row durations being non-negative). -/
theorem bandwidth_zero_when_no_device_time :
    (∀ r : E2ERow,
        (0 < gpuDmaNs r ∧ 0 < r.bytes → rowBw r = perTransferBw r) ∧
          (gpuDmaNs r = 0 → rowBw r = 0)) ∧
    (∀ (rows : List E2ERow) (kind : String),
        dirBw rows kind =
          if bwGroup rows kind = [] then 0
          else ((bwGroup rows kind).map perTransferBw).sum /
            ((bwGroup rows kind).length : ℚ)) ∧
    (∀ (rows : List E2ERow) (kind : String),
        (∀ r ∈ dirGroup rows kind, 0 ≤ gpuDmaNs r) →
        (statsFor rows kind).gpuDma = 0 → dirBw rows kind = 0) := by
  refine ⟨?_, dirBw_eq_mean, ?_⟩
  · intro r
    constructor
    · intro h; rw [rowBw, if_pos h]
    · intro h
      have : ¬(0 < gpuDmaNs r ∧ 0 < r.bytes) := by omega
      rw [rowBw, if_neg this]
  · intro rows kind hnn htot
    rw [statsFor_eq] at htot
    have hnn' : ∀ x ∈ (dirGroup rows kind).map gpuDmaNs, 0 ≤ x := by
      intro x hx
      obtain ⟨r', hr', rfl⟩ := List.mem_map.mp hx
      exact hnn r' hr'
    have hzero : ∀ r ∈ dirGroup rows kind, gpuDmaNs r = 0 := fun r hr =>
      sum_int_zero_of_nonneg hnn' htot (gpuDmaNs r) (List.mem_map_of_mem _ hr)
    have hempty : bwGroup rows kind = [] := by
      rw [bwGroup, List.filter_eq_nil_iff]
      intro r hr
      have := hzero r hr
      simp only [decide_eq_true_eq]
      omega
    rw [dirBw_eq_mean, if_pos hempty]

/-- Witness for `bandwidth_zero_when_no_device_time` on a zero-duration
transfer: its row bandwidth and its group bandwidth are both exactly 0. -/
theorem bandwidth_zero_when_no_device_time_witness :
    (gpuDmaNs zRow = 0 ∧ rowBw zRow = 0) ∧
      (∀ r ∈ dirGroup [zRow] "HtoD", 0 ≤ gpuDmaNs r) ∧
      (statsFor [zRow] "HtoD").gpuDma = 0 ∧
      dirBw [zRow] "HtoD" = 0 :=
  ⟨⟨by decide, (bandwidth_zero_when_no_device_time.1 zRow).2 (by decide)⟩,
    by decide, by decide,
    bandwidth_zero_when_no_device_time.2.2 [zRow] "HtoD" (by decide) (by decide)⟩

end Memcpy

namespace Pairs

theorem scanPrev_eq_some_iff (p : Ev → Bool) (es : List Ev) (i : Nat)
    (hi : i ≤ es.length) (a : Ev) :
    scanPrev p es i = some a ↔
      (p a = true ∧ ∃ j, ∃ hj : j < es.length, j < i ∧ es.get ⟨j, hj⟩ = a ∧
        ∀ j', (hj' : j' < es.length) → j < j' → j' < i →
          p (es.get ⟨j', hj'⟩) = false) := by
  rw [scanPrev, List.find?_eq_some_iff_getElem]
  have hlen : (es.take i).length = i := by simp [hi]
  constructor
  · rintro ⟨hpa, m, hm, hget, hbefore⟩
    have hm' : m < i := by simpa [hlen] using hm
    refine ⟨hpa, i - 1 - m, by omega, by omega, ?_, ?_⟩
    · rw [List.getElem_reverse] at hget
      rw [List.getElem_take] at hget
      rw [List.get_eq_getElem]
      simpa [hlen] using hget
    · intro j' hj' hlt hlt2
      have := hbefore (i - 1 - j') (by simpa [hlen] using (by omega : i - 1 - j' < m))
      rw [List.getElem_reverse, List.getElem_take] at this
      rw [List.get_eq_getElem]
      have hidx : i - 1 - (i - 1 - j') = j' := by omega
      simp only [Bool.not_eq_true'] at this
      simpa [hlen, hidx] using this
  · rintro ⟨hpa, j, hj, hji, hget, hafter⟩
    refine ⟨hpa, i - 1 - j, by simp [hlen]; omega, ?_, ?_⟩
    · rw [List.getElem_reverse, List.getElem_take]
      have hidx : i - 1 - (i - 1 - j) = j := by omega
      rw [List.get_eq_getElem] at hget
      simpa [hlen, hidx] using hget
    · intro m hm
      have hmi : m < i := by omega
      rw [List.getElem_reverse, List.getElem_take]
      have := hafter (i - 1 - m) (by omega) (by omega) (by omega)
      rw [List.get_eq_getElem] at this
      simp only [Bool.not_eq_true']
      simpa [hlen] using this

theorem scanNext_eq_some_iff (p : Ev → Bool) (es : List Ev) (i : Nat) (a : Ev) :
    scanNext p es i = some a ↔
      (p a = true ∧ ∃ j, ∃ hj : j < es.length, i < j ∧ es.get ⟨j, hj⟩ = a ∧
        ∀ j', (hj' : j' < es.length) → i < j' → j' < j →
          p (es.get ⟨j', hj'⟩) = false) := by
  rw [scanNext, List.find?_eq_some_iff_getElem]
  constructor
  · rintro ⟨hpa, m, hm, hget, hbefore⟩
    have hm' : i + 1 + m < es.length := by
      have := hm; simp [List.length_drop] at this; omega
    refine ⟨hpa, i + 1 + m, hm', by omega, ?_, ?_⟩
    · rw [List.getElem_drop] at hget
      rw [List.get_eq_getElem]
      simpa using hget
    · intro j' hj' hlt hlt2
      have := hbefore (j' - (i + 1)) (by omega)
      rw [List.getElem_drop] at this
      rw [List.get_eq_getElem]
      have hidx : i + 1 + (j' - (i + 1)) = j' := by omega
      simp only [Bool.not_eq_true'] at this
      simpa [hidx] using this
  · rintro ⟨hpa, j, hj, hji, hget, hafter⟩
    refine ⟨hpa, j - (i + 1), by simp [List.length_drop]; omega, ?_, ?_⟩
    · rw [List.getElem_drop]
      have hidx : i + 1 + (j - (i + 1)) = j := by omega
      rw [List.get_eq_getElem] at hget
      simpa [hidx] using hget
    · intro m hm
      rw [List.getElem_drop]
      have := hafter (i + 1 + m) (by omega) (by omega) (by omega)
      rw [List.get_eq_getElem] at this
      simp only [Bool.not_eq_true']
      simpa using this

theorem scanPrev_eq_none_iff (p : Ev → Bool) (es : List Ev) (i : Nat)
    (hi : i ≤ es.length) :
    scanPrev p es i = none ↔
      ∀ j, (hj : j < es.length) → j < i → p (es.get ⟨j, hj⟩) = false := by
  rw [scanPrev, List.find?_eq_none]
  constructor
  · intro h j hj hji
    have hmem : es.get ⟨j, hj⟩ ∈ (es.take i).reverse := by
      rw [List.mem_reverse]
      rw [List.get_eq_getElem]
      exact List.mem_take_iff_getElem.mpr ⟨j, by simp [hi]; omega, rfl⟩
    simpa using h _ hmem
  · intro h x hx
    rw [List.mem_reverse, List.mem_take_iff_getElem] at hx
    obtain ⟨j, hj, rfl⟩ := hx
    have hj1 : j < es.length := by simp [hi] at hj; omega
    have hj2 : j < i := by simp [hi] at hj; omega
    have := h j hj1 hj2
    rw [List.get_eq_getElem] at this
    simp [this]

theorem scanNext_eq_none_iff (p : Ev → Bool) (es : List Ev) (i : Nat) :
    scanNext p es i = none ↔
      ∀ j, (hj : j < es.length) → i < j → p (es.get ⟨j, hj⟩) = false := by
  rw [scanNext, List.find?_eq_none]
  constructor
  · intro h j hj hji
    have hmem : es.get ⟨j, hj⟩ ∈ es.drop (i + 1) := by
      rw [List.get_eq_getElem]
      rw [List.mem_iff_getElem]
      have hidx : i + 1 + (j - (i + 1)) = j := by omega
      exact ⟨j - (i + 1), by simp [List.length_drop]; omega,
        by rw [List.getElem_drop]; simp [hidx]⟩
    simpa using h _ hmem
  · intro h x hx
    rw [List.mem_iff_getElem] at hx
    obtain ⟨m, hm, rfl⟩ := hx
    have hm' : i + 1 + m < es.length := by simp [List.length_drop] at hm; omega
    have := h (i + 1 + m) hm' (by omega)
    rw [List.get_eq_getElem] at this
    rw [List.getElem_drop]
    simp [this]

/-- C4: for a transfer event at position `i` of the chronologically sorted
timeline, `prev_kernel` is `some k` exactly when `k` is a same-stream kernel
at an earlier position with no same-stream kernel strictly between it and the
transfer (the positional nearest), and `none` exactly when no same-stream
kernel precedes; symmetrically for `next_kernel`.  A reported previous kernel
starts no later than the transfer and no earlier than any other preceding
same-stream kernel (nearest in start-time order), and
`gap_before = transfer.start - prev.end`; symmetrically
`gap_after = next.start - transfer.end`. -/
theorem pairing_nearest_same_stream (es : List Ev)
    (hsort : es.Pairwise fun a b => a.start ≤ b.start)
    (i : Nat) (hi : i < es.length)
    (_ht : (es.get ⟨i, hi⟩).type = EvType.memcpy) :
    (∀ k, prevKernel es i (es.get ⟨i, hi⟩).stream = some k ↔
        (isKernelOn (es.get ⟨i, hi⟩).stream k = true ∧
          ∃ j, ∃ hj : j < es.length, j < i ∧ es.get ⟨j, hj⟩ = k ∧
            ∀ j', (hj' : j' < es.length) → j < j' → j' < i →
              isKernelOn (es.get ⟨i, hi⟩).stream (es.get ⟨j', hj'⟩) = false)) ∧
    (prevKernel es i (es.get ⟨i, hi⟩).stream = none ↔
        ∀ j, (hj : j < es.length) → j < i →
          isKernelOn (es.get ⟨i, hi⟩).stream (es.get ⟨j, hj⟩) = false) ∧
    (∀ k, prevKernel es i (es.get ⟨i, hi⟩).stream = some k →
        k.start ≤ (es.get ⟨i, hi⟩).start ∧
          (∀ j, (hj : j < es.length) → j < i →
            isKernelOn (es.get ⟨i, hi⟩).stream (es.get ⟨j, hj⟩) = true →
            (es.get ⟨j, hj⟩).start ≤ k.start) ∧
          gapBeforeNs es i = some ((es.get ⟨i, hi⟩).start - k.endTs)) ∧
    (∀ k, nextKernel es i (es.get ⟨i, hi⟩).stream = some k ↔
        (isKernelOn (es.get ⟨i, hi⟩).stream k = true ∧
          ∃ j, ∃ hj : j < es.length, i < j ∧ es.get ⟨j, hj⟩ = k ∧
            ∀ j', (hj' : j' < es.length) → i < j' → j' < j →
              isKernelOn (es.get ⟨i, hi⟩).stream (es.get ⟨j', hj'⟩) = false)) ∧
    (nextKernel es i (es.get ⟨i, hi⟩).stream = none ↔
        ∀ j, (hj : j < es.length) → i < j →
          isKernelOn (es.get ⟨i, hi⟩).stream (es.get ⟨j, hj⟩) = false) ∧
    (∀ k, nextKernel es i (es.get ⟨i, hi⟩).stream = some k →
        (es.get ⟨i, hi⟩).start ≤ k.start ∧
          (∀ j, (hj : j < es.length) → i < j →
            isKernelOn (es.get ⟨i, hi⟩).stream (es.get ⟨j, hj⟩) = true →
            k.start ≤ (es.get ⟨j, hj⟩).start) ∧
          gapAfterNs es i = some (k.start - (es.get ⟨i, hi⟩).endTs)) := by
  have hpw : ∀ (a b : Fin es.length), a < b →
      (es.get a).start ≤ (es.get b).start := by
    intro a b hab
    exact List.pairwise_iff_get.mp hsort a b hab
  have hprev := scanPrev_eq_some_iff (isKernelOn (es.get ⟨i, hi⟩).stream) es i
    (le_of_lt hi)
  have hnext := scanNext_eq_some_iff (isKernelOn (es.get ⟨i, hi⟩).stream) es i
  refine ⟨fun k => hprev k, ?_, ?_, fun k => hnext k, ?_, ?_⟩
  · exact scanPrev_eq_none_iff _ es i (le_of_lt hi)
  · intro k hk
    obtain ⟨hpk, j, hj, hji, hget, hafter⟩ := (hprev k).mp hk
    have hks : k.start ≤ (es.get ⟨i, hi⟩).start := by
      have := hpw ⟨j, hj⟩ ⟨i, hi⟩ hji
      rwa [hget] at this
    refine ⟨hks, ?_, ?_⟩
    · intro j0 hj0 hj0i hkj0
      rcases Nat.lt_trichotomy j0 j with hlt | heq | hgt
      · have := hpw ⟨j0, hj0⟩ ⟨j, hj⟩ hlt
        rwa [hget] at this
      · subst heq
        rw [show (⟨j0, hj0⟩ : Fin es.length) = ⟨j0, hj⟩ from rfl, hget]
      · have hfalse := hafter j0 hj0 hgt hj0i
        rw [hkj0] at hfalse
        exact absurd hfalse (by simp)
    · have hgi : es[i]? = some (es.get ⟨i, hi⟩) := by
        rw [List.get_eq_getElem]
        exact List.getElem?_eq_getElem hi
      simp only [gapBeforeNs, hgi]
      rw [hk]
      rfl
  · exact scanNext_eq_none_iff _ es i
  · intro k hk
    obtain ⟨hpk, j, hj, hji, hget, hbefore⟩ := (hnext k).mp hk
    have hks : (es.get ⟨i, hi⟩).start ≤ k.start := by
      have := hpw ⟨i, hi⟩ ⟨j, hj⟩ hji
      rwa [hget] at this
    refine ⟨hks, ?_, ?_⟩
    · intro j0 hj0 hij0 hkj0
      rcases Nat.lt_trichotomy j j0 with hlt | heq | hgt
      · have := hpw ⟨j, hj⟩ ⟨j0, hj0⟩ hlt
        rwa [hget] at this
      · subst heq
        rw [show (⟨j, hj0⟩ : Fin es.length) = ⟨j, hj⟩ from rfl, hget]
      · have hfalse := hbefore j0 hj0 hij0 hgt
        rw [hkj0] at hfalse
        exact absurd hfalse (by simp)
    · have hgi : es[i]? = some (es.get ⟨i, hi⟩) := by
        rw [List.get_eq_getElem]
        exact List.getElem?_eq_getElem hi
      simp only [gapAfterNs, hgi]
      rw [hk]
      rfl

/-- Witness for `pairing_nearest_same_stream` on the three-event scenario:
gap_before = 20 - 10 = 10 and gap_after = 50 - 30 = 20. -/
theorem pairing_nearest_same_stream_witness :
    List.Pairwise (fun a b => a.start ≤ b.start) demoTL ∧
      (demoTL.get ⟨1, by decide⟩).type = EvType.memcpy ∧
      gapBeforeNs demoTL 1 = some 10 ∧ gapAfterNs demoTL 1 = some 20 := by
  have h := pairing_nearest_same_stream demoTL (by decide) 1 (by decide) (by decide)
  refine ⟨by decide, by decide, ?_, ?_⟩
  · exact ((h.2.2.1 { type := EvType.kernel, start := 0, endTs := 10, stream := 1 }
      (by decide)).2.2).trans (by decide)
  · exact ((h.2.2.2.2.2 { type := EvType.kernel, start := 50, endTs := 60, stream := 1 }
      (by decide)).2.2).trans (by decide)

/-- C5 counterexample: in the timeline [tA, tA2, kB] (all on stream 0), the
compute event kB is reported as transfer tA's "next on stream", but the
reverse lookup for kB (the same backward scan with the roles swapped) yields
the intervening transfer tA2, not tA — pairing is not symmetric when another
transfer lies between. -/
theorem pairing_symmetry_counterexample :
    nextKernel [tA, tA2, kB] 0 0 = some kB ∧
      prevTransfer [tA, tA2, kB] 2 0 = some tA2 ∧
      ¬ prevTransfer [tA, tA2, kB] 2 0 = some tA := by
  refine ⟨by decide, by decide, by decide⟩

/-- C5 (amended): if compute event B (at position `iB`) is reported as
transfer A's (position `iA`) "next on stream", then A is reported as B's
"prev on stream" provided no same-stream transfer lies strictly between A
and B; without that proviso the symmetric lookup returns the intervening
transfer instead. -/
theorem pairing_symmetry_conditional (es : List Ev) (iA iB : Nat)
    (hA : iA < es.length) (hB : iB < es.length) (σ : Int)
    (htA : isMemcpyOn σ (es.get ⟨iA, hA⟩) = true)
    (hAB : iA < iB)
    (_hnext : nextKernel es iA σ = some (es.get ⟨iB, hB⟩))
    (hbetween : ∀ j, (hj : j < es.length) → iA < j → j < iB →
      isMemcpyOn σ (es.get ⟨j, hj⟩) = false) :
    prevTransfer es iB σ = some (es.get ⟨iA, hA⟩) := by
  rw [prevTransfer, scanPrev_eq_some_iff _ _ _ (le_of_lt hB)]
  exact ⟨htA, iA, hA, hAB, rfl, fun j hj h1 h2 => hbetween j hj h1 h2⟩

/-- Witness for `pairing_symmetry_conditional` on the two-event timeline
[tA, kB]: kB is tA's next kernel, nothing lies between, and tA is kB's
previous transfer. -/
theorem pairing_symmetry_conditional_witness :
    isMemcpyOn 0 ([tA, kB].get ⟨0, by decide⟩) = true ∧
      nextKernel [tA, kB] 0 0 = some ([tA, kB].get ⟨1, by decide⟩) ∧
      prevTransfer [tA, kB] 1 0 = some tA := by
  refine ⟨by decide, by decide, ?_⟩
  exact (pairing_symmetry_conditional [tA, kB] 0 1 (by decide) (by decide) 0
    (by decide) (by omega) (by decide)
    (by intro j hj h1 h2; exact absurd h2 (by omega))).trans (by decide)

end Pairs

namespace Memcpy

/-- C8 counterexample: for the record `negRow`, the raw launch overhead is
-5 ns, yet the surfaced launch-overhead value is 0 — the code clamps
`launch_overhead_ns` (and `sync_wait_ns`) with `max(0, ...)` instead of
surfacing the raw negative value unmodified. -/
theorem negative_clamped_counterexample :
    launchOverheadNs negRow = -5 ∧ csvLaunchNs negRow = 0 ∧
      ¬ csvLaunchNs negRow = launchOverheadNs negRow := by
  refine ⟨by decide, by decide, by decide⟩

end Memcpy


/-- C8 (amended): `cpu_wall` is surfaced unmodified (possibly negative), and
`gap_before` / `gap_after` of the pairing engine surface the raw signed
difference with no clamping; but `launch_overhead` and `sync_wait` are
clamped to zero with `max(0, ...)` — a negative raw value is never surfaced
for them. -/
theorem negative_interval_policy :
    (∀ r : Memcpy.E2ERow,
        Memcpy.csvCpuWallNs r = Memcpy.cpuWallNs r ∧
          0 ≤ Memcpy.csvLaunchNs r ∧ 0 ≤ Memcpy.csvSyncNs r ∧
          (Memcpy.launchOverheadNs r < 0 →
            ¬ Memcpy.csvLaunchNs r = Memcpy.launchOverheadNs r) ∧
          (Memcpy.syncWaitNs r < 0 →
            ¬ Memcpy.csvSyncNs r = Memcpy.syncWaitNs r)) ∧
    (∀ (es : List Pairs.Ev) (i : Nat) (t k : Pairs.Ev),
        es[i]? = some t → Pairs.prevKernel es i t.stream = some k →
        Pairs.gapBeforeNs es i = some (t.start - k.endTs)) ∧
    (∀ (es : List Pairs.Ev) (i : Nat) (t k : Pairs.Ev),
        es[i]? = some t → Pairs.nextKernel es i t.stream = some k →
        Pairs.gapAfterNs es i = some (k.start - t.endTs)) := by
  refine ⟨?_, ?_, ?_⟩
  · intro r
    refine ⟨rfl, le_max_left _ _, le_max_left _ _, ?_, ?_⟩
    · intro hneg
      rw [Memcpy.csvLaunchNs, max_eq_left (by omega)]
      omega
    · intro hneg
      rw [Memcpy.csvSyncNs, max_eq_left (by omega)]
      omega
  · intro es i t k hget hk
    simp only [Pairs.gapBeforeNs, hget]
    rw [hk]
    rfl
  · intro es i t k hget hk
    simp only [Pairs.gapAfterNs, hget]
    rw [hk]
    rfl

/-- Witness for `negative_interval_policy`: at `negRow` the raw launch
overhead is negative and the surfaced value differs from it; on a timeline
whose kernel ends after the transfer starts, the raw negative gap -30 is
surfaced as-is. -/
theorem negative_interval_policy_witness :
    (Memcpy.launchOverheadNs Memcpy.negRow < 0 ∧
      ¬ Memcpy.csvLaunchNs Memcpy.negRow = Memcpy.launchOverheadNs Memcpy.negRow) ∧
      ([({ type := Pairs.EvType.kernel, start := 0, endTs := 50, stream := 1 } : Pairs.Ev),
          ({ type := Pairs.EvType.memcpy, start := 20, endTs := 30, stream := 1 } : Pairs.Ev)][1]? =
        some { type := Pairs.EvType.memcpy, start := 20, endTs := 30, stream := 1 }) ∧
      Pairs.gapBeforeNs
        [({ type := Pairs.EvType.kernel, start := 0, endTs := 50, stream := 1 } : Pairs.Ev),
         { type := Pairs.EvType.memcpy, start := 20, endTs := 30, stream := 1 }] 1 =
        some (-30) := by
  refine ⟨⟨by decide, (negative_interval_policy.1 Memcpy.negRow).2.2.2.1 (by decide)⟩,
    by decide, ?_⟩
  exact (negative_interval_policy.2.1
    [{ type := Pairs.EvType.kernel, start := 0, endTs := 50, stream := 1 },
     { type := Pairs.EvType.memcpy, start := 20, endTs := 30, stream := 1 }] 1
    { type := Pairs.EvType.memcpy, start := 20, endTs := 30, stream := 1 }
    { type := Pairs.EvType.kernel, start := 0, endTs := 50, stream := 1 }
    (by decide) (by decide)).trans (by decide)

namespace PlotTrace

theorem mem_firstSeenAux {α : Type} [DecidableEq α] (l seen : List α) (x : α) :
    x ∈ firstSeenAux seen l ↔ x ∈ l ∧ x ∉ seen := by
  induction l generalizing seen with
  | nil => simp [firstSeenAux]
  | cons a l ih =>
      rw [firstSeenAux]
      by_cases ha : a ∈ seen
      · rw [if_pos ha, ih]
        by_cases hx : x = a
        · subst hx; simp [ha]
        · simp [hx]
      · rw [if_neg ha]
        by_cases hx : x = a
        · subst hx; simp [ha]
        · simp [List.mem_cons, ih, hx]

theorem mem_firstSeen {α : Type} [DecidableEq α] (l : List α) (x : α) :
    x ∈ firstSeen l ↔ x ∈ l := by
  rw [firstSeen, mem_firstSeenAux]
  simp

theorem nodup_firstSeenAux {α : Type} [DecidableEq α] (l seen : List α) :
    (firstSeenAux seen l).Nodup := by
  induction l generalizing seen with
  | nil => simp [firstSeenAux]
  | cons a l ih =>
      rw [firstSeenAux]
      by_cases ha : a ∈ seen
      · rw [if_pos ha]; exact ih seen
      · rw [if_neg ha]
        refine List.Nodup.cons ?_ (ih (a :: seen))
        intro hmem
        rw [mem_firstSeenAux] at hmem
        exact hmem.2 (List.mem_cons_self _ _)

theorem nodup_firstSeen {α : Type} [DecidableEq α] (l : List α) :
    (firstSeen l).Nodup :=
  nodup_firstSeenAux l []

theorem foldl_min_mem (t : List ℚ) (h : ℚ) : t.foldl min h ∈ h :: t := by
  induction t generalizing h with
  | nil => simp [List.foldl]
  | cons b t ih =>
      rw [List.foldl_cons]
      have hmem := ih (min h b)
      rw [List.mem_cons] at hmem
      rcases hmem with heq | hmem
      · rw [heq]
        rcases min_cases h b with ⟨he, _⟩ | ⟨he, _⟩ <;> simp [he]
      · exact List.mem_cons_of_mem _ (List.mem_cons_of_mem _ hmem)

theorem foldl_min_le (t : List ℚ) (h : ℚ) : ∀ x ∈ h :: t, t.foldl min h ≤ x := by
  induction t generalizing h with
  | nil => intro x hx; rw [List.mem_singleton] at hx; simp [hx]
  | cons b t ih =>
      intro x hx
      rw [List.foldl_cons]
      rw [List.mem_cons, List.mem_cons] at hx
      rcases hx with rfl | rfl | hx
      · exact le_trans (ih _ _ (List.mem_cons_self _ _)) (min_le_left _ _)
      · exact le_trans (ih _ _ (List.mem_cons_self _ _)) (min_le_right _ _)
      · exact ih _ _ (List.mem_cons_of_mem _ hx)

theorem foldl_max_mem (t : List ℚ) (h : ℚ) : t.foldl max h ∈ h :: t := by
  induction t generalizing h with
  | nil => simp [List.foldl]
  | cons b t ih =>
      rw [List.foldl_cons]
      have hmem := ih (max h b)
      rw [List.mem_cons] at hmem
      rcases hmem with heq | hmem
      · rw [heq]
        rcases max_cases h b with ⟨he, _⟩ | ⟨he, _⟩ <;> simp [he]
      · exact List.mem_cons_of_mem _ (List.mem_cons_of_mem _ hmem)

theorem foldl_max_le (t : List ℚ) (h : ℚ) : ∀ x ∈ h :: t, x ≤ t.foldl max h := by
  induction t generalizing h with
  | nil => intro x hx; rw [List.mem_singleton] at hx; simp [hx]
  | cons b t ih =>
      intro x hx
      rw [List.foldl_cons]
      rw [List.mem_cons, List.mem_cons] at hx
      rcases hx with rfl | rfl | hx
      · exact le_trans (le_max_left _ _) (ih _ _ (List.mem_cons_self _ _))
      · exact le_trans (le_max_right _ _) (ih _ _ (List.mem_cons_self _ _))
      · exact ih _ _ (List.mem_cons_of_mem _ hx)

theorem qMin_mem (l : List ℚ) (h : l ≠ []) : qMin l ∈ l := by
  cases l with
  | nil => exact absurd rfl h
  | cons a t => exact foldl_min_mem t a

theorem qMin_le (l : List ℚ) : ∀ x ∈ l, qMin l ≤ x := by
  cases l with
  | nil => intro x hx; cases hx
  | cons a t => exact foldl_min_le t a

theorem qMax_mem (l : List ℚ) (h : l ≠ []) : qMax l ∈ l := by
  cases l with
  | nil => exact absurd rfl h
  | cons a t => exact foldl_max_mem t a

theorem le_qMax (l : List ℚ) : ∀ x ∈ l, x ≤ qMax l := by
  cases l with
  | nil => intro x hx; cases hx
  | cons a t => exact foldl_max_le t a

theorem qMin_perm (l1 l2 : List ℚ) (h : List.Perm l1 l2) : qMin l1 = qMin l2 := by
  cases l1 with
  | nil =>
      have : l2 = [] := List.Perm.eq_nil h.symm
      rw [this]
  | cons a t =>
      have h2 : l2 ≠ [] := by
        intro he
        rw [he] at h
        exact absurd (List.Perm.eq_nil h) (by simp)
      have hne : (a :: t) ≠ ([] : List ℚ) := by simp
      apply le_antisymm
      · exact qMin_le _ _ (h.mem_iff.mpr (qMin_mem l2 h2))
      · exact qMin_le _ _ (h.mem_iff.mp (qMin_mem _ hne))

theorem qMax_perm (l1 l2 : List ℚ) (h : List.Perm l1 l2) : qMax l1 = qMax l2 := by
  cases l1 with
  | nil =>
      have : l2 = [] := List.Perm.eq_nil h.symm
      rw [this]
  | cons a t =>
      have h2 : l2 ≠ [] := by
        intro he
        rw [he] at h
        exact absurd (List.Perm.eq_nil h) (by simp)
      have hne : (a :: t) ≠ ([] : List ℚ) := by simp
      apply le_antisymm
      · exact le_qMax _ _ (h.mem_iff.mp (qMax_mem _ hne))
      · exact le_qMax _ _ (h.mem_iff.mpr (qMax_mem l2 h2))

/-- The earliest-seen most frequent label satisfies the `value_counts`
contract. -/
theorem firstMax_isTieSelector : IsTieSelector firstMax := by
  intro ls h
  have hfs : firstSeen ls ≠ [] := by
    cases ls with
    | nil => exact absurd rfl h
    | cons a t =>
        intro he
        have : a ∈ firstSeen (a :: t) := (mem_firstSeen _ _).mpr (List.mem_cons_self _ _)
        rw [he] at this
        cases this
  obtain ⟨m, hm⟩ : ∃ m, (firstSeen ls).argmax (fun x => ls.count x) = some m := by
    cases hopt : (firstSeen ls).argmax (fun x => ls.count x) with
    | none => exact absurd (List.argmax_eq_none.mp hopt) hfs
    | some m => exact ⟨m, rfl⟩
  have hmode : firstMax ls = m := by rw [firstMax, hm]; rfl
  rw [hmode]
  constructor
  · exact (mem_firstSeen _ _).mp (List.argmax_mem hm)
  · intro x hx
    exact List.le_of_mem_argmax ((mem_firstSeen _ _).mpr hx) hm

/-- The latest-seen most frequent label also satisfies the `value_counts`
contract: the contract does not determine the winner of a frequency tie. -/
theorem lastMax_isTieSelector : IsTieSelector lastMax := by
  intro ls h
  have hrev : ls.reverse ≠ [] := by simpa using h
  obtain ⟨m, hm⟩ : ∃ m, ls.reverse.argmax (fun x => ls.count x) = some m := by
    cases hopt : ls.reverse.argmax (fun x => ls.count x) with
    | none => exact absurd (List.argmax_eq_none.mp hopt) hrev
    | some m => exact ⟨m, rfl⟩
  have hmode : lastMax ls = m := by rw [lastMax, hm]; rfl
  rw [hmode]
  constructor
  · exact List.mem_reverse.mp (List.argmax_mem hm)
  · intro x hx
    exact List.le_of_mem_argmax (List.mem_reverse.mpr hx) hm

/-- Every admissible tie selection returns the unique most frequent label
when there is one — ties are the only underdetermined case. -/
theorem tie_eq_of_unique (tie : List String → String) (htie : IsTieSelector tie)
    (ls : List String) (m : String) (hm : m ∈ ls)
    (huniq : ∀ x ∈ ls, x ≠ m → ls.count x < ls.count m) : tie ls = m := by
  have h : ls ≠ [] := by
    intro he; rw [he] at hm; cases hm
  obtain ⟨hmem, hmax⟩ := htie ls h
  by_contra hne
  exact absurd (hmax m hm) (not_le.mpr (huniq _ hmem hne))

theorem tie_perm_of_unique (tie : List String → String) (htie : IsTieSelector tie)
    (l1 l2 : List String) (h : List.Perm l1 l2) (m : String) (hm : m ∈ l1)
    (huniq : ∀ x ∈ l1, x ≠ m → l1.count x < l1.count m) :
    tie l1 = tie l2 := by
  rw [tie_eq_of_unique tie htie l1 m hm huniq]
  rw [tie_eq_of_unique tie htie l2 m (h.mem_iff.mp hm)]
  intro x hx hne
  rw [← h.count_eq, ← h.count_eq]
  exact huniq x (h.mem_iff.mpr hx) hne

theorem mem_sortedKeys (ks : List KRec) (W : ℚ) (key : Int × Int) :
    key ∈ sortedKeys ks W ↔ ∃ e ∈ ks, groupKey e W = key := by
  simp [sortedKeys, mem_firstSeen]

theorem nodup_sortedKeys (ks : List KRec) (W : ℚ) : (sortedKeys ks W).Nodup := by
  rw [sortedKeys]
  exact ((List.perm_insertionSort keyLe _).nodup_iff).mpr (nodup_firstSeen _)

theorem sortedKeys_perm_eq (ks ks2 : List KRec) (W : ℚ) (h : List.Perm ks ks2) :
    sortedKeys ks W = sortedKeys ks2 W := by
  have hmaps : List.Perm (ks.map fun e => groupKey e W) (ks2.map fun e => groupKey e W) :=
    h.map _
  have hfs : List.Perm (firstSeen (ks.map fun e => groupKey e W))
      (firstSeen (ks2.map fun e => groupKey e W)) := by
    rw [List.perm_ext_iff_of_nodup (nodup_firstSeen _) (nodup_firstSeen _)]
    intro a
    rw [mem_firstSeen, mem_firstSeen]
    exact hmaps.mem_iff
  refine List.eq_of_perm_of_sorted ?_
    (List.sorted_insertionSort keyLe _) (List.sorted_insertionSort keyLe _)
  exact ((List.perm_insertionSort keyLe _).trans hfs).trans
    (List.perm_insertionSort keyLe _).symm

theorem groupOf_perm (ks ks2 : List KRec) (W : ℚ) (key : Int × Int)
    (h : List.Perm ks ks2) : List.Perm (groupOf ks W key) (groupOf ks2 W key) :=
  h.filter _

theorem groupOf_ne_nil_of_mem_sortedKeys (ks : List KRec) (W : ℚ) (key : Int × Int)
    (h : key ∈ sortedKeys ks W) : groupOf ks W key ≠ [] := by
  rw [mem_sortedKeys] at h
  obtain ⟨e, he, hk⟩ := h
  intro hnil
  have : e ∈ groupOf ks W key := by
    rw [groupOf, List.mem_filter]
    exact ⟨he, by simpa using hk⟩
  rw [hnil] at this
  cases this

theorem ratTrunc_eq_floor (q : ℚ) (h : 0 ≤ q) : ratTrunc q = ⌊q⌋ := by
  rw [ratTrunc, Rat.floor_def]
  exact Int.tdiv_eq_ediv (Rat.num_nonneg.mpr h) (by positivity)

theorem binIdx_zero (q W : ℚ) (h0 : 0 ≤ q) (hW : 0 < W) (hqW : q < W) :
    binIdx q W = 0 := by
  rw [binIdx, ratTrunc_eq_floor _ (by positivity)]
  rw [Int.floor_eq_zero_iff]
  exact ⟨by positivity, by rwa [div_lt_one hW]⟩

theorem scenario_keyA : groupKey scA 10 = (2, 0) := by
  have hb5 : binIdx (5 : ℚ) 10 = 0 :=
    binIdx_zero _ _ (by norm_num) (by norm_num) (by norm_num)
  simp [groupKey, scA, hb5]

theorem scenario_keyB : groupKey scB 10 = (2, 0) := by
  have hb8 : binIdx (8 : ℚ) 10 = 0 :=
    binIdx_zero _ _ (by norm_num) (by norm_num) (by norm_num)
  simp [groupKey, scB, hb8]

theorem scenario_sortedKeys : sortedKeys [scA, scB] 10 = [(2, 0)] := by
  rw [sortedKeys]
  simp only [List.map_cons, List.map_nil, scenario_keyA, scenario_keyB]
  rw [firstSeen]
  simp [firstSeenAux, List.insertionSort, List.orderedInsert]

theorem scenario_group : groupOf [scA, scB] 10 (2, 0) = [scA, scB] := by
  simp [groupOf, List.filter, scenario_keyA, scenario_keyB]

theorem scenario_eval (tie : List String → String) (htie : IsTieSelector tie) :
    binEvents tie [scA, scB] 10 =
      [{ stream := 2, bin := 0, count := 2, startMs := 5, endMs := 18,
         totalDur := 20, label := "k" }] := by
  have hlab : tie ["k", "k"] = "k" := by
    have h1 := (htie ["k", "k"] (by simp)).1
    simpa using h1
  rw [binEvents, scenario_sortedKeys, List.map_cons, List.map_nil]
  rw [mkBin, scenario_group]
  simp only [List.map_cons, List.map_nil, List.length_cons, List.length_nil]
  rw [qMin, qMax]
  norm_num [scA, scB, min_def, max_def, hlab]

theorem binEvents_keys (tie : List String → String) (ks : List KRec) (W : ℚ) :
    (binEvents tie ks W).map (fun b => (b.stream, b.bin)) = sortedKeys ks W := by
  rw [binEvents, List.map_map]
  have hcomp : ((fun b : BinRec => (b.stream, b.bin)) ∘ mkBin tie ks W) = id :=
    funext fun key => by simp [mkBin, Function.comp]
  rw [hcomp, List.map_id]

theorem binning_floor_groups (tie : List String → String)
    (htie : IsTieSelector tie) (ks : List KRec) (W : ℚ) (hW : 0 < W)
    (hpos : ∀ e ∈ ks, 0 ≤ e.startMs) :
    (∀ e ∈ ks, binIdx e.startMs W = ⌊e.startMs / W⌋) ∧
      ((binEvents tie ks W).map fun b => (b.stream, b.bin)).Nodup ∧
      (∀ key : Int × Int, (∃ e ∈ ks, groupKey e W = key) ↔
        key ∈ (binEvents tie ks W).map fun b => (b.stream, b.bin)) ∧
      (∀ b ∈ binEvents tie ks W,
        groupOf ks W (b.stream, b.bin) ≠ [] ∧
        b.count = (groupOf ks W (b.stream, b.bin)).length ∧
        (b.startMs ∈ (groupOf ks W (b.stream, b.bin)).map (fun e => e.startMs) ∧
          ∀ x ∈ (groupOf ks W (b.stream, b.bin)).map (fun e => e.startMs), b.startMs ≤ x) ∧
        (b.endMs ∈ (groupOf ks W (b.stream, b.bin)).map (fun e => e.endMs) ∧
          ∀ x ∈ (groupOf ks W (b.stream, b.bin)).map (fun e => e.endMs), x ≤ b.endMs) ∧
        b.totalDur = ((groupOf ks W (b.stream, b.bin)).map (fun e => e.durMs)).sum ∧
        MostFrequent ((groupOf ks W (b.stream, b.bin)).map fun e => e.label)
          b.label) := by
  refine ⟨?_, ?_, ?_, ?_⟩
  · intro e he
    rw [binIdx, ratTrunc_eq_floor]
    have := hpos e he
    positivity
  · rw [binEvents_keys]
    exact nodup_sortedKeys ks W
  · intro key
    rw [binEvents_keys]
    exact (mem_sortedKeys ks W key).symm
  · intro b hb
    rw [binEvents, List.mem_map] at hb
    obtain ⟨key, hkey, rfl⟩ := hb
    have hkey2 : ((mkBin tie ks W key).stream, (mkBin tie ks W key).bin) = key := by
      simp [mkBin]
    rw [hkey2]
    have hg : groupOf ks W key ≠ [] :=
      groupOf_ne_nil_of_mem_sortedKeys ks W key hkey
    have hmapne : ∀ (f : KRec → ℚ), (groupOf ks W key).map f ≠ [] := by
      intro f hnil
      exact hg (List.map_eq_nil_iff.mp hnil)
    have hlabne : (groupOf ks W key).map (fun e => e.label) ≠ [] := by
      intro hnil
      exact hg (List.map_eq_nil_iff.mp hnil)
    refine ⟨hg, rfl, ⟨qMin_mem _ (hmapne _), qMin_le _⟩,
      ⟨qMax_mem _ (hmapne _), le_qMax _⟩, rfl, ?_⟩
    exact htie _ hlabne

/-- Order-independence of binning for any admissible tie selection: keys and
numeric fields are permutation-invariant, and the representative labels as
well whenever every group has a unique most frequent label.  (What happens
on a frequency tie is not determined by the `value_counts` contract.) -/
theorem binEvents_perm_invariant (tie : List String → String)
    (htie : IsTieSelector tie) (ks ks2 : List KRec) (W : ℚ)
    (h : List.Perm ks ks2) :
    ((binEvents tie ks W).map
        (fun b => (b.stream, b.bin, b.count, b.startMs, b.endMs, b.totalDur)) =
      (binEvents tie ks2 W).map
        (fun b => (b.stream, b.bin, b.count, b.startMs, b.endMs, b.totalDur))) ∧
    ((∀ key ∈ sortedKeys ks W, UniqueMode ((groupOf ks W key).map fun e => e.label)) →
      binEvents tie ks W = binEvents tie ks2 W) := by
  have hsk := sortedKeys_perm_eq ks ks2 W h
  constructor
  · rw [binEvents, binEvents, ← hsk, List.map_map, List.map_map]
    apply List.map_congr_left
    intro key hkey
    have hgp := groupOf_perm ks ks2 W key h
    have hlen := hgp.length_eq
    have hmin := qMin_perm _ _ (hgp.map fun e => e.startMs)
    have hmax := qMax_perm _ _ (hgp.map fun e => e.endMs)
    have hsum := (hgp.map fun e => e.durMs).sum_eq
    simp [Function.comp, mkBin, hlen, hmin, hmax, hsum]
  · intro huniq
    rw [binEvents, binEvents, ← hsk]
    apply List.map_congr_left
    intro key hkey
    have hgp := groupOf_perm ks ks2 W key h
    obtain ⟨m, hm, hu⟩ := huniq key hkey
    have hlabel := tie_perm_of_unique tie htie _ _ (hgp.map fun e => e.label) m hm hu
    have hlen := hgp.length_eq
    have hmin := qMin_perm _ _ (hgp.map fun e => e.startMs)
    have hmax := qMax_perm _ _ (hgp.map fun e => e.endMs)
    have hsum := (hgp.map fun e => e.durMs).sum_eq
    simp [mkBin, hlen, hmin, hmax, hsum, hlabel]

theorem cx_eval (tie : List String → String) (lab : String)
    (hlab : tie ["a", "b"] = lab) :
    binEvents tie [cxa, cxb] 10 =
      [{ stream := 0, bin := 0, count := 2, startMs := 1, endMs := 4,
         totalDur := 2, label := lab }] := by
  have hb1 : binIdx (1 : ℚ) 10 = 0 := binIdx_zero _ _ (by norm_num) (by norm_num) (by norm_num)
  have hb3 : binIdx (3 : ℚ) 10 = 0 := binIdx_zero _ _ (by norm_num) (by norm_num) (by norm_num)
  have hkA : groupKey cxa 10 = (0, 0) := by simp [groupKey, cxa, hb1]
  have hkB : groupKey cxb 10 = (0, 0) := by simp [groupKey, cxb, hb3]
  have hsk : sortedKeys [cxa, cxb] 10 = [(0, 0)] := by
    rw [sortedKeys]
    simp only [List.map_cons, List.map_nil, hkA, hkB]
    rw [firstSeen]
    simp [firstSeenAux, List.insertionSort, List.orderedInsert]
  have hgrp : groupOf [cxa, cxb] 10 (0, 0) = [cxa, cxb] := by
    simp [groupOf, List.filter, hkA, hkB]
  rw [binEvents, hsk, List.map_cons, List.map_nil]
  rw [mkBin, hgrp]
  simp only [List.map_cons, List.map_nil, List.length_cons, List.length_nil]
  rw [qMin, qMax]
  norm_num [cxa, cxb, min_def, max_def, hlab]

/-- C6 counterexample: for the concrete one-bin group [label "a", label "b"]
(frequencies tied 1-1), the claimed first-seen tie-break would force the
representative "a".  But the program only guarantees a most frequent label:
pandas resolves the tie by its hash-table bucket order, which is determined
by the labels\u0027 hashes (randomized across processes for Python strings), not
by first-seen order.  Two selectors that both satisfy the `value_counts`
contract — the earliest-seen and the latest-seen maximizer — produce Bins
with different representatives ("a" vs "b") on this input, so the claimed
tie-break rule is not a property the code guarantees. -/
theorem mode_tiebreak_counterexample :
    IsTieSelector firstMax ∧ IsTieSelector lastMax ∧
      firstMax ["a", "b"] = "a" ∧ lastMax ["a", "b"] = "b" ∧
      binEvents firstMax [cxa, cxb] 10 =
        [{ stream := 0, bin := 0, count := 2, startMs := 1, endMs := 4,
           totalDur := 2, label := "a" }] ∧
      binEvents lastMax [cxa, cxb] 10 =
        [{ stream := 0, bin := 0, count := 2, startMs := 1, endMs := 4,
           totalDur := 2, label := "b" }] ∧
      ¬ binEvents firstMax [cxa, cxb] 10 = binEvents lastMax [cxa, cxb] 10 := by
  have hab : binEvents firstMax [cxa, cxb] 10 =
      [{ stream := 0, bin := 0, count := 2, startMs := 1, endMs := 4,
         totalDur := 2, label := "a" }] := cx_eval firstMax "a" (by decide)
  have hba : binEvents lastMax [cxa, cxb] 10 =
      [{ stream := 0, bin := 0, count := 2, startMs := 1, endMs := 4,
         totalDur := 2, label := "b" }] := cx_eval lastMax "b" (by decide)
  refine ⟨firstMax_isTieSelector, lastMax_isTieSelector, by decide, by decide,
    hab, hba, ?_⟩
  rw [hab, hba]
  simp

/-- C6 (amended): for any tie selection satisfying the `value_counts`
contract, a positive bin width and non-negative start times, every event
gets bin index floor(start / W) (the code truncates, which equals floor on
non-negative inputs); `bin_events` emits exactly one Bin per non-empty
`(stream_id, bin)` group — the emitted key list is duplicate-free and covers
exactly the non-empty groups — and each Bin carries start = min start,
end = max end, count = group size, total_active = sum of durations, and a
representative label that is a most frequent label of the group (the winner
of a frequency tie follows pandas\u0027 internal hash-bucket order and is not a
function of the event order); in particular two kernels on stream 2 starting
at 5 and 8 with W = 10 produce exactly one Bin spanning [5,18) with
count 2. -/
theorem binning_floor_groups_spec (tie : List String → String)
    (htie : IsTieSelector tie) :
    (∀ (ks : List KRec) (W : ℚ), 0 < W → (∀ e ∈ ks, 0 ≤ e.startMs) →
      (∀ e ∈ ks, binIdx e.startMs W = ⌊e.startMs / W⌋) ∧
        ((binEvents tie ks W).map fun b => (b.stream, b.bin)).Nodup ∧
        (∀ key : Int × Int, (∃ e ∈ ks, groupKey e W = key) ↔
          key ∈ (binEvents tie ks W).map fun b => (b.stream, b.bin)) ∧
        (∀ b ∈ binEvents tie ks W,
          groupOf ks W (b.stream, b.bin) ≠ [] ∧
          b.count = (groupOf ks W (b.stream, b.bin)).length ∧
          (b.startMs ∈ (groupOf ks W (b.stream, b.bin)).map (fun e => e.startMs) ∧
            ∀ x ∈ (groupOf ks W (b.stream, b.bin)).map (fun e => e.startMs), b.startMs ≤ x) ∧
          (b.endMs ∈ (groupOf ks W (b.stream, b.bin)).map (fun e => e.endMs) ∧
            ∀ x ∈ (groupOf ks W (b.stream, b.bin)).map (fun e => e.endMs), x ≤ b.endMs) ∧
          b.totalDur = ((groupOf ks W (b.stream, b.bin)).map (fun e => e.durMs)).sum ∧
          MostFrequent ((groupOf ks W (b.stream, b.bin)).map fun e => e.label)
            b.label)) ∧
    binEvents tie [scA, scB] 10 =
      [{ stream := 2, bin := 0, count := 2, startMs := 5, endMs := 18,
         totalDur := 20, label := "k" }] :=
  ⟨binning_floor_groups tie htie, scenario_eval tie htie⟩

/-- Witness for `binning_floor_groups_spec`: instantiated with the concrete
admissible selector `firstMax` on the scenario input. -/
theorem binning_floor_groups_spec_witness :
    IsTieSelector firstMax ∧
      ((0 : ℚ) < 10 ∧ ∀ e ∈ [scA, scB], 0 ≤ e.startMs) ∧
      (∀ e ∈ [scA, scB], binIdx e.startMs 10 = ⌊e.startMs / 10⌋) ∧
      ((binEvents firstMax [scA, scB] 10).map fun b => (b.stream, b.bin)).Nodup ∧
      binEvents firstMax [scA, scB] 10 =
        [{ stream := 2, bin := 0, count := 2, startMs := 5, endMs := 18,
           totalDur := 20, label := "k" }] :=
  ⟨firstMax_isTieSelector, ⟨by norm_num, by decide⟩,
    ((binning_floor_groups_spec firstMax firstMax_isTieSelector).1
      [scA, scB] 10 (by norm_num) (by decide)).1,
    ((binning_floor_groups_spec firstMax firstMax_isTieSelector).1
      [scA, scB] 10 (by norm_num) (by decide)).2.1,
    (binning_floor_groups_spec firstMax firstMax_isTieSelector).2⟩

end PlotTrace

namespace Origin

/-- C9 counterexample: on a trace whose earliest event is a transfer at 5
(first kernel at 10), the origin used by the analyzer and window dumper is
10 — the minimum kernel start — not the minimum start over all events, 5. -/
theorem trace_origin_counterexample :
    traceOriginAnalyze cxTrace = some 10 ∧ specTraceOrigin cxTrace = some 5 ∧
      ¬ traceOriginAnalyze cxTrace = specTraceOrigin cxTrace := by
  refine ⟨by decide, by decide, by decide⟩

theorem minInt_eq_some_iff (l : List Int) (v : Int) :
    l.min? = some v ↔ v ∈ l ∧ ∀ u ∈ l, v ≤ u := by
  have anti : Std.Antisymm (fun x1 x2 : Int => x1 ≤ x2) :=
    ⟨fun h1 h2 => le_antisymm h1 h2⟩
  rw [List.min?_eq_some_iff (fun a => le_refl a) (fun a b => min_choice a b)
    (fun a b c => le_min_iff)]

/-- C9 (amended): the analyzer's and window dumper's trace origin is the
minimum kernel start whenever any kernel exists, falling back to the minimum
transfer start only for kernel-free traces — it is not the minimum over all
events (api-call rows are never consulted, and transfers earlier than every
kernel are ignored); the timeline visualizer's origin is the true minimum
over kernel and transfer starts together.  Each script computes its origin
once per store session. -/
theorem trace_origin_characterization (t : Trace) :
    (t.kernels ≠ [] →
      traceOriginAnalyze t = (t.kernels.map fun k => k.start).min?) ∧
    (t.kernels = [] →
      traceOriginAnalyze t = (t.memcpys.map fun m => m.start).min?) ∧
    (∀ v, traceOriginVisualize t = some v →
      v ∈ t.kernels.map (fun k => k.start) ++ t.memcpys.map (fun m => m.start) ∧
        ∀ u ∈ t.kernels.map (fun k => k.start) ++ t.memcpys.map (fun m => m.start),
          v ≤ u) := by
  refine ⟨?_, ?_, ?_⟩
  · intro hk
    cases hmin : (t.kernels.map fun k => k.start).min? with
    | some v => rw [traceOriginAnalyze, hmin]
    | none =>
        rw [List.min?_eq_none_iff] at hmin
        exact absurd (List.map_eq_nil_iff.mp hmin) hk
  · intro hk
    rw [traceOriginAnalyze, hk]
    rfl
  · intro v hv
    exact (minInt_eq_some_iff _ v).mp hv

/-- Witness for `trace_origin_characterization` on `cxTrace`. -/
theorem trace_origin_characterization_witness :
    cxTrace.kernels ≠ [] ∧
      traceOriginAnalyze cxTrace = (cxTrace.kernels.map fun k => k.start).min? ∧
      traceOriginVisualize cxTrace = some 5 ∧
      (5 : Int) ∈ cxTrace.kernels.map (fun k => k.start) ++
        cxTrace.memcpys.map (fun m => m.start) ∧
      ∀ u ∈ cxTrace.kernels.map (fun k => k.start) ++
          cxTrace.memcpys.map (fun m => m.start), (5 : Int) ≤ u :=
  ⟨by decide, (trace_origin_characterization cxTrace).1 (by decide), by decide,
    ((trace_origin_characterization cxTrace).2.2 5 (by decide)).1,
    ((trace_origin_characterization cxTrace).2.2 5 (by decide)).2⟩

end Origin
